import Mathlib

attribute [local semireducible] Rat.add Rat.sub Rat.mul Rat.inv

/-
Formal model of the Audio-Description-Generator pipeline core
( https://github.com/tommyneu/Audio-Description-Generator ).

The development shallowly embeds the segmentation, merging, deduplication,
timeline-synchronization and temp-file-deletion logic of the Python sources:

  * audio_block_detect.get_audio_blocks     (speech/pause segmentation)
  * visual_scene_detect._merge_short_scenes (scene merging)
  * describe_video.merge_short_segments     (segment merging)
  * describe_video.should_skip_description / process_scene (dedup + edit list)
  * process_video.process_video             (script-driven edit list)
  * visual_scene_detect_clip.get_visual_scenes (similarity-threshold shots)
  * process_video.delete_tmp_file and friends (guarded temp-file deletion)

Times are modelled as rationals (ℚ).  External engines (Whisper, Ollama,
CLIP, TTS, ffmpeg) are parameters of the embedded functions: the word-token
list, the per-frame embeddings, the similarity scorer and the description
function are inputs, exactly as the spec treats them (opaque collaborators).

Timecode strings: `ffmpeg_helper.seconds_to_timecode` is not part of the
sources here; per the spec (§4.1) "formatting to a display timecode is a
presentation concern", so timecodes are modelled by their numeric value in
seconds.  `visual_scene_detect._timecode_to_seconds` is the corresponding
inverse and is likewise the identity in this model.
-/

/-- Python's `str.strip()`: drop ASCII whitespace from both ends. -/
def pyStrip (s : String) : String :=
  String.mk (((s.data.dropWhile Char.isWhitespace).reverse.dropWhile
    Char.isWhitespace).reverse)

/-- Modelled from the spec: `ffmpeg_helper.seconds_to_timecode` is absent from
the sources; the spec (§4.1) states timecode formatting is presentational with
no rounding inside the segmenter, so a timecode is modelled by its numeric
seconds value. -/
def seconds_to_timecode (seconds : ℚ) : ℚ := seconds

/-- Word token produced by the speech-to-text engine: whisper word entries
`{"word": ..., "start": ..., "end": ...}` flattened from all segments. -/
structure WordToken where
  word : String
  start : ℚ
  «end» : ℚ
deriving DecidableEq, Repr

/-- A speech/pause block produced by `audio_block_detect.get_audio_blocks`.
The `start_timecode` field records the value passed to `seconds_to_timecode`:
`none` models the Python code passing `None` (the `text_buffer_start`
variable when it was never assigned), which is outside the numeric domain of
any timecode formatter. -/
structure AudioBlock where
  scene_number : ℕ
  text : String
  start_timecode : Option ℚ
  end_timecode : ℚ
deriving DecidableEq, Repr

/-- The inter-token break test of `audio_block_detect.get_audio_blocks`
(line 45): `if gap > min_pause:` where `gap = start - last_end`. -/
def breakCondition (min_pause last_end : ℚ) (w : WordToken) : Bool :=
  decide (w.start - last_end > min_pause)

/-- The `for index, single_word in enumerate(words)` loop of
`audio_block_detect.get_audio_blocks` (lines 39-85).  State threaded through
the iterations: `block_count`, `last_end`, `text_buffer`, `text_buffer_start`.
Returns the appended blocks together with the final `block_count` and
`last_end`.  `index == len(words) - 1` is modelled by the remaining list
being empty. -/
def getAudioBlocksLoop (min_pause : ℚ) :
    List WordToken → ℕ → ℚ → String → Option ℚ → List AudioBlock × ℕ × ℚ
  | [], block_count, last_end, _text_buffer, _text_buffer_start =>
      ([], block_count, last_end)
  | w :: rest, block_count, last_end, text_buffer, text_buffer_start =>
      if breakCondition min_pause last_end w then
        -- big enough gap: flush the buffer as a block (lines 45-62);
        -- the block keeps the *current* word's end as its end timecode and,
        -- when `text_buffer_start` is None, starts at timecode 0.0.
        let blk : AudioBlock :=
          match text_buffer_start with
          | none =>
              ⟨block_count, pyStrip text_buffer, some (seconds_to_timecode 0),
                seconds_to_timecode w.«end»⟩
          | some s =>
              ⟨block_count, pyStrip text_buffer, some (seconds_to_timecode s),
                seconds_to_timecode w.«end»⟩
        let r := getAudioBlocksLoop min_pause rest (block_count + 1) w.«end» w.word none
        (blk :: r.1, r.2)
      else
        match rest with
        | [] =>
          -- last word (`index == len(words) - 1`): flush the buffer including
          -- this word (lines 64-76); `text_buffer_start` is passed to the
          -- timecode formatter as-is (possibly None) and is not reset.
          let blk : AudioBlock :=
            ⟨block_count, text_buffer ++ w.word,
              text_buffer_start.map seconds_to_timecode, seconds_to_timecode w.«end»⟩
          (blk :: [], block_count + 1, w.«end»)
        | w2 :: rest2 =>
          -- no gap: extend the buffer (lines 78-85), recording the buffer
          -- start on first use.
          let text_buffer_start' :=
            match text_buffer_start with
            | none => some w.start
            | some s => some s
          getAudioBlocksLoop min_pause (w2 :: rest2) block_count w.«end»
            (text_buffer ++ w.word) text_buffer_start'

/-- `audio_block_detect.get_audio_blocks` (lines 28-96), with the transcription
result (flattened word list) and the probed media duration as inputs. -/
def get_audio_blocks (words : List WordToken) (min_pause total_duration : ℚ) :
    List AudioBlock :=
  if words = [] then []
  else
    let r := getAudioBlocksLoop min_pause words 0 0 "" none
    if r.2.2 < total_duration then
      r.1 ++ [⟨r.2.1, "", some (seconds_to_timecode r.2.2),
        seconds_to_timecode total_duration⟩]
    else r.1

/-- Adjacent contiguity of audio blocks: each block's start timecode is the
previous block's end timecode. -/
def audioChainB : List AudioBlock → Bool
  | [] => true
  | [_] => true
  | a :: b :: rest =>
      decide (b.start_timecode = some a.end_timecode) && audioChainB (b :: rest)

/-- The partition property claimed for the speech segmenter, as a boolean:
non-empty output whose first interval starts at 0, adjacent intervals share
their boundary, and whose last interval ends at the total duration. -/
def audioPartitionB (blocks : List AudioBlock) (total : ℚ) : Bool :=
  !blocks.isEmpty &&
  decide (blocks.head?.map AudioBlock.start_timecode = some (some 0)) &&
  audioChainB blocks &&
  decide (blocks.getLast?.map AudioBlock.end_timecode = some total)

/-- The partition property claimed for the speech segmenter. -/
def audioPartition (blocks : List AudioBlock) (total : ℚ) : Prop :=
  audioPartitionB blocks total = true

/-- Modelled from the spec alongside `seconds_to_timecode`:
`visual_scene_detect._timecode_to_seconds` converts an `hh:mm:ss.ms` timecode
string back to seconds; with timecodes modelled by their numeric seconds value
it is the identity. -/
def _timecode_to_seconds (timecode : ℚ) : ℚ := timecode

/-- A visual scene as built by `visual_scene_detect.get_visual_scenes` and
`visual_scene_detect_clip.get_visual_scenes`: scene number plus start/end
timecodes (modelled in seconds). -/
structure Scene where
  scene_number : ℕ
  start_timecode : ℚ
  end_timecode : ℚ
deriving DecidableEq, Repr

/-- The scan loop of `visual_scene_detect._merge_short_scenes` (lines 37-49):
returns the `merged` list of locked scenes together with the final
`current_scene`.  A short `current_scene` is fused forward by extending its
end timecode to the next scene's end. -/
def mergeScenesLoop (min_duration : ℚ) : Scene → List Scene → List Scene × Scene
  | current_scene, [] => ([], current_scene)
  | current_scene, next_scene :: rest =>
      if _timecode_to_seconds current_scene.end_timecode -
          _timecode_to_seconds current_scene.start_timecode < min_duration then
        mergeScenesLoop min_duration
          { current_scene with end_timecode := next_scene.end_timecode } rest
      else
        let r := mergeScenesLoop min_duration next_scene rest
        (current_scene :: r.1, r.2)

/-- The backward merge of `visual_scene_detect._merge_short_scenes`
(lines 56-58): `merged[-1]['end_timecode'] = current_scene['end_timecode']`. -/
def setLastEnd (e : ℚ) : List Scene → List Scene
  | [] => []
  | [s] => [{ s with end_timecode := e }]
  | s :: s2 :: rest => s :: setLastEnd e (s2 :: rest)

/-- The scene renumbering of `visual_scene_detect._merge_short_scenes`
(lines 62-64): `for i, scene in enumerate(merged): scene['scene_number'] = i`,
started at index `i`. -/
def renumberFrom (i : ℕ) : List Scene → List Scene
  | [] => []
  | s :: rest => { s with scene_number := i } :: renumberFrom (i + 1) rest

/-- `visual_scene_detect._merge_short_scenes` (lines 29-66). -/
def _merge_short_scenes (scenes : List Scene) (min_duration : ℚ) : List Scene :=
  match scenes with
  | [] => []
  | c :: rest =>
      let r := mergeScenesLoop min_duration c rest
      let merged := r.1
      let current_scene := r.2
      let result :=
        if _timecode_to_seconds current_scene.end_timecode -
            _timecode_to_seconds current_scene.start_timecode < min_duration ∧
            merged ≠ [] then
          setLastEnd current_scene.end_timecode merged
        else
          merged ++ [current_scene]
      renumberFrom 0 result

/-- A whisper segment dict `{"start": ..., "end": ..., "text": ...}` as used
by `describe_video.fill_gaps` and `describe_video.merge_short_segments`. -/
structure Segment where
  start : ℚ
  «end» : ℚ
  text : String
deriving DecidableEq, Repr

/-- The scan loop of `describe_video.merge_short_segments` (lines 117-131):
while the accumulated `buffer` is shorter than `min_length`, the next segment
is fused into it (end extended, texts joined with a space and stripped);
otherwise the buffer is locked and the next segment starts a new buffer.  The
final buffer is appended unconditionally. -/
def mergeSegLoop (min_length : ℚ) : Segment → List Segment → List Segment
  | buffer, [] => [buffer]
  | buffer, seg :: rest =>
      if buffer.«end» - buffer.start < min_length then
        mergeSegLoop min_length
          ⟨buffer.start, seg.«end», pyStrip (buffer.text ++ " " ++ seg.text)⟩ rest
      else
        buffer :: mergeSegLoop min_length seg rest

/-- `describe_video.merge_short_segments` (lines 104-132). -/
def merge_short_segments (segments : List Segment) (min_length : ℚ) : List Segment :=
  match segments with
  | [] => []
  | s :: rest => mergeSegLoop min_length s rest

/-- The interval order invariant of the spec (§3): `0 <= start <= end` for
each interval and `intervals[i].end <= intervals[i+1].start`, as a boolean on
scenes. -/
def orderedScenesB : List Scene → Bool
  | [] => true
  | [s] => decide (0 ≤ s.start_timecode) && decide (s.start_timecode ≤ s.end_timecode)
  | a :: b :: rest =>
      decide (0 ≤ a.start_timecode) &&
      decide (a.start_timecode ≤ a.end_timecode) &&
      decide (a.end_timecode ≤ b.start_timecode) &&
      orderedScenesB (b :: rest)

/-- A clip reference appended to the `clips` edit list by
`describe_video.process_scene`: either the original scene footage
(`./tmp/scene_N.mp4`) or the generated still-frame narration clip
(`./tmp/scene_N_still_frame.mp4`). -/
inductive Clip where
  | sceneClip (scene_number : ℕ)
  | stillFrameClip (scene_number : ℕ)
deriving DecidableEq, Repr

/-- `describe_video.should_skip_description` (lines 178-182).  The external
text-similarity engine `semantic_similarity` and the global similarity
threshold `SIMILARLY_SCORE` are parameters. -/
def should_skip_description (semantic_similarity : String → String → ℚ)
    (similarly_score : ℚ) (prev curr : String) : Bool :=
  decide (semantic_similarity prev curr ≥ similarly_score)

/-- The skip decision of `describe_video.process_scene` (lines 262-264):
`len(previous_descriptions) > 0 and should_skip_description(image_description,
previous_descriptions[-1])`.  The short-circuiting `and` means the similarity
engine is not consulted when there is no previous description. -/
def sceneSkipping (semantic_similarity : String → String → ℚ) (similarly_score : ℚ)
    (image_description : String) (previous_descriptions : List String) : Bool :=
  match previous_descriptions.getLast? with
  | none => false
  | some prev_last =>
      should_skip_description semantic_similarity similarly_score
        image_description prev_last

/-- `describe_video.process_scene` (lines 226-287), reduced to its edit-list
and dedup-state effect.  The external calls (clip cutting, frame grabs, the
description engine and TTS) are parameters: `describe` maps a scene number to
the description the engine returned for that scene's frames.  Returns the
updated `clips` and `previous_descriptions` lists. -/
def process_scene (describe : ℕ → String) (semantic_similarity : String → String → ℚ)
    (similarly_score : ℚ) (scene_number : ℕ) (clips : List Clip)
    (previous_descriptions : List String) : List Clip × List String :=
  let image_description := describe scene_number
  let skipping :=
    sceneSkipping semantic_similarity similarly_score image_description
      previous_descriptions
  if image_description = "" ∨ skipping = true then
    (clips ++ [Clip.sceneClip scene_number], previous_descriptions)
  else
    (clips ++ [Clip.stillFrameClip scene_number, Clip.sceneClip scene_number],
      previous_descriptions ++ [image_description])

/-- The scene loop of `describe_video.process_video` (lines 215-216):
`for scene in scenes: process_scene(...)`, threading `clips` and
`previous_descriptions` through. -/
def processScenes (describe : ℕ → String) (semantic_similarity : String → String → ℚ)
    (similarly_score : ℚ) :
    List ℕ → List Clip → List String → List Clip × List String
  | [], clips, previous_descriptions => (clips, previous_descriptions)
  | n :: rest, clips, previous_descriptions =>
      let r := process_scene describe semantic_similarity similarly_score n clips
        previous_descriptions
      processScenes describe semantic_similarity similarly_score rest r.1 r.2

/-- One parsed line of the narration script consumed by
`process_video.process_video`: `time_str, text = current_line.split(" ", 1)`
with `timestamp = float(time_str)`. -/
structure ScriptLine where
  timestamp : ℚ
  text : String
deriving DecidableEq, Repr

/-- An edit-list entry produced by `process_video.process_video`: an original
video clip cut from `[start, stop]`, or a still-frame narration clip anchored
at the frame grabbed at `anchor` narrating `text`. -/
inductive VClip where
  | videoClip (start stop : ℚ)
  | narrationClip (anchor : ℚ) (text : String)
deriving DecidableEq, Repr

/-- The script-line loop of `process_video.process_video` (lines 79-130):
for each line, cut the original video from `previous_time` to the line's
timestamp (omitted when the two coincide), then append the narration clip for
the line, then advance `previous_time`. -/
def processLines : List ScriptLine → ℚ → List VClip → List VClip × ℚ
  | [], previous_time, clips => (clips, previous_time)
  | line :: rest, previous_time, clips =>
      let next_time := line.timestamp
      let clips :=
        if next_time ≠ previous_time then
          clips ++ [VClip.videoClip (seconds_to_timecode previous_time)
            (seconds_to_timecode next_time)]
        else clips
      let clips := clips ++ [VClip.narrationClip next_time line.text]
      processLines rest next_time clips

/-- `process_video.process_video` (lines 58-151), reduced to the edit list it
builds: the script-line loop followed by the final clip covering
`[previous_time, total_duration]` when those differ (lines 132-140). -/
def process_video (lines : List ScriptLine) (total_duration : ℚ) : List VClip :=
  let r := processLines lines 0 []
  if r.2 ≠ total_duration then
    r.1 ++ [VClip.videoClip (seconds_to_timecode r.2)
      (seconds_to_timecode total_duration)]
  else r.1

/-- Narration-before-footage ordering of an edit list: every narration clip is
immediately followed by the original-footage clip that starts at the
narration's anchor time. -/
def narrationPrecedesFootage : List VClip → Prop
  | [] => True
  | VClip.narrationClip t _ :: rest =>
      (∃ e, rest.head? = some (VClip.videoClip t e)) ∧ narrationPrecedesFootage rest
  | VClip.videoClip _ _ :: rest => narrationPrecedesFootage rest

/-- `narrTail clips p`: narration-before-footage ordering holds inside
`clips`, except that the final entry may be a narration clip still waiting
for its footage, in which case its anchor is `p` (the loop's
`previous_time`). -/
def narrTail : List VClip → ℚ → Prop
  | [], _ => True
  | [VClip.narrationClip t _], p => t = p
  | [VClip.videoClip _ _], _ => True
  | VClip.narrationClip t _ :: c :: rest, p =>
      (∃ e, c = VClip.videoClip t e) ∧ narrTail (c :: rest) p
  | VClip.videoClip _ _ :: c :: rest, p => narrTail (c :: rest) p

/-- Strictly increasing script timestamps, all below the media duration. -/
def scriptSortedB (total_duration : ℚ) : List ScriptLine → Bool
  | [] => true
  | [l] => decide (l.timestamp < total_duration)
  | a :: b :: rest =>
      decide (a.timestamp < total_duration) &&
      decide (a.timestamp < b.timestamp) &&
      scriptSortedB total_duration (b :: rest)

/-- Python `range(0, stop, step)` for `step > 0`: the multiples of `step`
below `stop`, in increasing order. -/
def pyRange (stop step : ℕ) : List ℕ :=
  (List.range stop).filter (fun i => i % step = 0)

/-- The frame loop of `visual_scene_detect_clip.get_visual_scenes`
(lines 78-100), parametrised by the external CLIP embedding of the frame
grabbed at each sampled second (`emb`) and the cosine-similarity scorer
(`sim`, applied as `sim(current, previous)` exactly as in
`_compute_cosine_similarity(emb, prev_emb)`).  State: `prev_emb`,
`current_scene_start`, `scene_number`.  Returns the scenes appended at
boundaries together with the final `current_scene_start` and `scene_number`. -/
def visLoop {E : Type} (sim : E → E → ℚ) (threshold : ℚ) (emb : ℕ → E) :
    List ℕ → Option E → ℚ → ℕ → List Scene × ℚ × ℕ
  | [], _prev_emb, current_scene_start, scene_number =>
      ([], current_scene_start, scene_number)
  | frame_index :: rest, prev_emb, current_scene_start, scene_number =>
      match prev_emb with
      | none =>
          visLoop sim threshold emb rest (some (emb frame_index))
            current_scene_start scene_number
      | some p =>
          if sim (emb frame_index) p < threshold then
            let r := visLoop sim threshold emb rest (some (emb frame_index))
              (frame_index : ℚ) (scene_number + 1)
            (⟨scene_number, seconds_to_timecode current_scene_start,
              seconds_to_timecode (frame_index : ℚ)⟩ :: r.1, r.2)
          else
            visLoop sim threshold emb rest (some (emb frame_index))
              current_scene_start scene_number

/-- `visual_scene_detect_clip.get_visual_scenes` (lines 65-111), with the
probed `duration` and the external embedding/similarity engines as inputs.
The frame times are `range(0, int(duration), seconds_per_check)` and the last
scene always closes at `duration`. -/
def get_visual_scenes {E : Type} (sim : E → E → ℚ) (emb : ℕ → E) (duration : ℚ)
    (seconds_per_check : ℕ) (threshold : ℚ) : List Scene :=
  let idxs := pyRange (Int.toNat ⌊duration⌋) seconds_per_check
  let r := visLoop sim threshold emb idxs none 0 1
  r.1 ++ [⟨r.2.2, seconds_to_timecode r.2.1, seconds_to_timecode duration⟩]

/-- `chainFrom a l b`: the scenes in `l` tile the span `[a, b]` exactly — the
first starts at `a`, each scene's end is the next scene's start, every scene
has `start ≤ end`, and the last ends at `b` (`a = b` when `l` is empty). -/
def chainFrom (a : ℚ) : List Scene → ℚ → Prop
  | [], b => a = b
  | s :: rest, b =>
      s.start_timecode = a ∧ a ≤ s.end_timecode ∧ chainFrom s.end_timecode rest b

/-- The filesystem operations consulted by the temp-file deleters, as an
abstract state: `os.path.exists`, `os.path.isfile`, `os.path.abspath` and
`os.path.dirname`. -/
structure FileSystem where
  pathExists : String → Bool
  isfile : String → Bool
  abspath : String → String
  dirname : String → String

/-- Outcome of a temp-file deleter call: returned without touching the
filesystem, removed the file at the resolved path, or raised `ValueError`. -/
inductive DeleteResult where
  | noop
  | removed (path : String)
  | error (message : String)
deriving DecidableEq, Repr

/-- Message of the `ValueError` raised for a non-file path. -/
def msgNonFile : String := "Trying to delete a non-file"

/-- Message of the `ValueError` raised for a path outside `./tmp`. -/
def msgOutsideTmp : String := "Trying to delete a file outside tmp folder"

/-- `process_video.delete_tmp_file` (lines 26-42), identical to
`visual_scene_detect_clip.delete_tmp_file` (lines 25-41): skip when saving
files or when the path does not exist; raise on a non-file; resolve the path
and raise unless its parent directory is the resolved `./tmp`; else remove. -/
def delete_tmp_file (save_files : Bool) (fs : FileSystem) (file_path : String) :
    DeleteResult :=
  if save_files then DeleteResult.noop
  else if ¬ fs.pathExists file_path then DeleteResult.noop
  else if ¬ fs.isfile file_path then DeleteResult.error msgNonFile
  else
    let file_path := fs.abspath file_path
    let directory_path := fs.abspath "./tmp"
    if ¬ (fs.dirname file_path = directory_path) then
      DeleteResult.error msgOutsideTmp
    else DeleteResult.removed file_path

/-- `text_to_speech._delete_tmp_file` (lines 26-40): the same checks without
the save-files guard. -/
def _delete_tmp_file (fs : FileSystem) (file_path : String) : DeleteResult :=
  if ¬ fs.pathExists file_path then DeleteResult.noop
  else if ¬ fs.isfile file_path then DeleteResult.error msgNonFile
  else
    let file_path := fs.abspath file_path
    let directory_path := fs.abspath "./tmp"
    if ¬ (fs.dirname file_path = directory_path) then
      DeleteResult.error msgOutsideTmp
    else DeleteResult.removed file_path

/-!  Theorems.  -/

/-- Claim C2 (counterexample): merging the visual intervals
`[{0,5},{5,6},{6,20}]` with minimum duration 2.0 does not return
`[{0,6},{6,20}]`, under either merger implementation. -/
theorem merge_scenario_c_cex :
    _merge_short_scenes [⟨0, 0, 5⟩, ⟨1, 5, 6⟩, ⟨2, 6, 20⟩] 2 ≠
      [⟨0, 0, 6⟩, ⟨1, 6, 20⟩] ∧
    merge_short_segments [⟨0, 5, ""⟩, ⟨5, 6, ""⟩, ⟨6, 20, ""⟩] 2 ≠
      [⟨0, 6, ""⟩, ⟨6, 20, ""⟩] := by decide

/-- Claim C2 (amended): merging `[{0,5},{5,6},{6,20}]` with minimum duration
2.0 returns `[{0,5},{5,20}]` — the undersized `{5,6}` interval fuses forward
with the following interval, extending to its end, in both merger
implementations. -/
theorem merge_scenario_c_eval :
    _merge_short_scenes [⟨0, 0, 5⟩, ⟨1, 5, 6⟩, ⟨2, 6, 20⟩] 2 =
      [⟨0, 0, 5⟩, ⟨1, 5, 20⟩] ∧
    merge_short_segments [⟨0, 5, ""⟩, ⟨5, 6, ""⟩, ⟨6, 20, ""⟩] 2 =
      [⟨0, 5, ""⟩, ⟨5, 20, ""⟩] := by decide

/-- Claim C3: on the single word token `{"hi", 0.0, 0.3}` with
`min_pause = 0.6` and total duration 2.0, the segmenter emits the speech
block with an *unset* start (`text_buffer_start` is still `None` and is
handed to the timecode formatter), not the claimed start 0.0; the block's
end 0.3, text `"hi"`, and the trailing silence block `{0.3, 2.0, ""}` match
the claim. -/
theorem get_audio_blocks_scenario_a_eval :
    get_audio_blocks [⟨"hi", 0, 3/10⟩] (3/5) 2 =
      [⟨0, "hi", none, 3/10⟩, ⟨1, "", some (3/10), 2⟩] := by decide

/-- Claim C5: `should_skip_description` returns true exactly when the
similarity engine scores the two texts at or above the threshold, and with no
previously accepted description the synchronizer never skips — the skip flag
is false and a non-empty candidate is accepted. -/
theorem should_skip_description_spec :
    ∀ (semantic_similarity : String → String → ℚ) (similarly_score : ℚ)
      (describe : ℕ → String) (prev curr : String) (n : ℕ) (clips : List Clip),
      (should_skip_description semantic_similarity similarly_score prev curr = true ↔
        semantic_similarity prev curr ≥ similarly_score) ∧
      sceneSkipping semantic_similarity similarly_score curr [] = false ∧
      (describe n ≠ "" →
        process_scene describe semantic_similarity similarly_score n clips [] =
          (clips ++ [Clip.stillFrameClip n, Clip.sceneClip n], [describe n])) := by
  intro semantic_similarity similarly_score describe prev curr n clips
  refine ⟨by simp [should_skip_description], rfl, fun h => ?_⟩
  simp [process_scene, sceneSkipping, h]

/-- Claim C5 witness at a concrete similarity engine, threshold, description
function and scene. -/
theorem should_skip_description_spec_witness :
    (should_skip_description (fun _ _ => 0) 1 "a" "b" = true ↔ (0 : ℚ) ≥ 1) ∧
    sceneSkipping (fun _ _ => 0) 1 "b" [] = false ∧
    process_scene (fun _ => "d") (fun _ _ => 0) 1 0 [] [] =
      ([Clip.stillFrameClip 0, Clip.sceneClip 0], ["d"]) := by
  have h := should_skip_description_spec (fun _ _ => (0 : ℚ)) 1 (fun _ => "d") "a" "b" 0 []
  exact ⟨h.1, h.2.1, h.2.2 (by decide)⟩

/-- Claim C6: when the description engine returns the empty string for a
scene, processing that scene leaves the dedup state unchanged, appends only
the original footage clip for the window, creates no narration clip, and the
scene loop continues with the remaining scenes from that state. -/
theorem empty_description_keeps_state :
    ∀ (describe : ℕ → String) (semantic_similarity : String → String → ℚ)
      (similarly_score : ℚ) (n : ℕ) (rest : List ℕ) (clips : List Clip)
      (previous_descriptions : List String),
      describe n = "" →
      process_scene describe semantic_similarity similarly_score n clips
          previous_descriptions =
        (clips ++ [Clip.sceneClip n], previous_descriptions) ∧
      processScenes describe semantic_similarity similarly_score (n :: rest) clips
          previous_descriptions =
        processScenes describe semantic_similarity similarly_score rest
          (clips ++ [Clip.sceneClip n]) previous_descriptions := by
  intro describe semantic_similarity similarly_score n rest clips previous_descriptions h
  have hp :
      process_scene describe semantic_similarity similarly_score n clips
          previous_descriptions =
        (clips ++ [Clip.sceneClip n], previous_descriptions) := by
    simp [process_scene, h]
  exact ⟨hp, by simp [processScenes, hp]⟩

/-- Claim C6 witness: concrete description engine returning empty for scene 0,
with one pending scene and non-trivial dedup state. -/
theorem empty_description_keeps_state_witness :
    process_scene (fun _ => "") (fun _ _ => 0) 1 0 [] ["p"] =
      ([Clip.sceneClip 0], ["p"]) ∧
    processScenes (fun _ => "") (fun _ _ => 0) 1 [0, 1] [] ["p"] =
      processScenes (fun _ => "") (fun _ _ => 0) 1 [1] [Clip.sceneClip 0] ["p"] :=
  empty_description_keeps_state (fun _ => "") (fun _ _ => 0) 1 0 [1] [] ["p"] rfl

/-- Claim C10: the temp-file deleter removes a file only when it exists, is a
regular file and its resolved parent directory is the resolved `./tmp`; it is
a no-op when file saving is enabled or the path does not exist; it raises
`ValueError` (removing nothing) on a non-file or on a file outside `./tmp`;
and the `text_to_speech` variant behaves as the guarded deleter with saving
disabled. -/
theorem delete_tmp_file_safety :
    ∀ (save_files : Bool) (fs : FileSystem) (file_path resolved : String),
      (delete_tmp_file save_files fs file_path = DeleteResult.removed resolved →
        save_files = false ∧ fs.pathExists file_path = true ∧
        fs.isfile file_path = true ∧
        fs.dirname (fs.abspath file_path) = fs.abspath "./tmp" ∧
        resolved = fs.abspath file_path) ∧
      (save_files = true ∨ fs.pathExists file_path = false →
        delete_tmp_file save_files fs file_path = DeleteResult.noop) ∧
      (save_files = false → fs.pathExists file_path = true →
        fs.isfile file_path = false →
        delete_tmp_file save_files fs file_path = DeleteResult.error msgNonFile) ∧
      (save_files = false → fs.pathExists file_path = true →
        fs.isfile file_path = true →
        fs.dirname (fs.abspath file_path) ≠ fs.abspath "./tmp" →
        delete_tmp_file save_files fs file_path = DeleteResult.error msgOutsideTmp) ∧
      _delete_tmp_file fs file_path = delete_tmp_file false fs file_path := by
  intro save_files fs file_path resolved
  refine ⟨?_, ?_, ?_, ?_, ?_⟩
  · intro h
    unfold delete_tmp_file at h
    cases save_files
    · simp_all
      split_ifs at h
      simp_all
    · simp_all
  · rintro (h | h) <;> simp [delete_tmp_file, h]
  · intro h1 h2 h3
    simp [delete_tmp_file, h1, h2, h3]
  · intro h1 h2 h3 h4
    simp [delete_tmp_file, h1, h2, h3, h4]
  · cases hp : fs.pathExists file_path <;>
      simp [delete_tmp_file, _delete_tmp_file, hp]

/-- Once the word loop has consumed all words, `last_end` is the final word's
end, and the block list it produced is non-empty with its last block ending at
that word's end (both closing branches stamp the current word's end). -/
theorem getAudioBlocksLoop_last (min_pause : ℚ) (words : List WordToken) :
    ∀ (w : WordToken) (bc : ℕ) (le : ℚ) (tb : String) (tbs : Option ℚ),
      words.getLast? = some w →
      (getAudioBlocksLoop min_pause words bc le tb tbs).2.2 = w.«end» ∧
      ∃ b, (getAudioBlocksLoop min_pause words bc le tb tbs).1.getLast? = some b ∧
        b.end_timecode = w.«end» := by
  induction words with
  | nil => intro w bc le tb tbs h; simp at h
  | cons x xs ih =>
    intro w bc le tb tbs h
    cases xs with
    | nil =>
      simp at h
      subst h
      cases hbc : breakCondition min_pause le x <;> cases tbs <;>
        simp [getAudioBlocksLoop, hbc, seconds_to_timecode]
    | cons y ys =>
      rw [List.getLast?_cons_cons] at h
      cases hbc : breakCondition min_pause le x
      · simp only [getAudioBlocksLoop, hbc, Bool.false_eq_true, if_false]
        exact ih w bc x.«end» (tb ++ x.word) _ h
      · obtain ⟨h1, b, h2, h3⟩ := ih w (bc + 1) x.«end» x.word none h
        refine ⟨?_, ⟨b, ?_, h3⟩⟩
        · simpa [getAudioBlocksLoop, hbc] using h1
        · simp only [getAudioBlocksLoop, hbc, if_true]
          cases hr : (getAudioBlocksLoop min_pause (y :: ys) (bc + 1) x.«end»
              x.word none).1 with
          | nil => rw [hr] at h2; simp at h2
          | cons c t => rw [hr] at h2; rw [List.getLast?_cons_cons]; exact h2

/-- Claim C1 (counterexample): on the word tokens
`[{w1, 0.5, 1}, {w2, 2, 3}, {w3, 4, 4.4}, {w4, 4.5, 5}]` with
`minPause = 0.6` and total duration 6 the output is
`[{0.5, 3, w1}, {0, 4.4, w2}, {None, 5, w3w4}, {5, 6, ""}]`: the first
interval starts at 0.5 (not 0), the second starts at timecode 0.0 and
overlaps the first, the third has an unset start, so the output does not
partition `[0, 6]`. -/
theorem get_audio_blocks_partition_cex :
    get_audio_blocks [⟨"w1", 1/2, 1⟩, ⟨"w2", 2, 3⟩, ⟨"w3", 4, 22/5⟩, ⟨"w4", 9/2, 5⟩]
        (3/5) 6 =
      [⟨0, "w1", some (1/2), 3⟩, ⟨1, "w2", some 0, 22/5⟩, ⟨2, "w3w4", none, 5⟩,
        ⟨3, "", some 5, 6⟩] ∧
    ¬ audioPartition
      (get_audio_blocks [⟨"w1", 1/2, 1⟩, ⟨"w2", 2, 3⟩, ⟨"w3", 4, 22/5⟩, ⟨"w4", 9/2, 5⟩]
        (3/5) 6) 6 := by
  constructor
  · decide
  · rw [audioPartition]
    decide

/-- Claim C1 (amended): for every non-empty token sequence whose last token
ends no later than the total duration, the output is non-empty and its last
interval ends exactly at the total duration; the remaining partition
properties fail in general (the first interval need not start at 0, starts
can be unset, and adjacent intervals can overlap or leave gaps). -/
theorem get_audio_blocks_ends_at_total :
    ∀ (words : List WordToken) (min_pause total : ℚ) (w : WordToken),
      words.getLast? = some w → w.«end» ≤ total →
      get_audio_blocks words min_pause total ≠ [] ∧
      ∃ b, (get_audio_blocks words min_pause total).getLast? = some b ∧
        b.end_timecode = total := by
  intro words min_pause total w hlast hle
  have hne : words ≠ [] := by
    intro h
    rw [h] at hlast
    simp at hlast
  obtain ⟨h1, b, h2, h3⟩ := getAudioBlocksLoop_last min_pause words w 0 0 "" none hlast
  unfold get_audio_blocks
  rw [if_neg hne]
  by_cases hlt : (getAudioBlocksLoop min_pause words 0 0 "" none).2.2 < total
  · rw [if_pos hlt]
    exact ⟨by simp, ⟨_, by rw [List.getLast?_concat], rfl⟩⟩
  · rw [if_neg hlt]
    have heq : (getAudioBlocksLoop min_pause words 0 0 "" none).2.2 = total :=
      le_antisymm (h1 ▸ hle) (not_lt.mp hlt)
    refine ⟨?_, ⟨b, h2, by rw [h3, ← h1, heq]⟩⟩
    intro hnil
    rw [hnil] at h2
    simp at h2

/-- Claim C1 witness: the single-token input ending at 0.3 with total
duration 2 gives a non-empty output ending at 2. -/
theorem get_audio_blocks_ends_at_total_witness :
    get_audio_blocks [⟨"hi", 0, 3/10⟩] (3/5) 2 ≠ [] ∧
    ∃ b, (get_audio_blocks [⟨"hi", 0, 3/10⟩] (3/5) 2).getLast? = some b ∧
      b.end_timecode = 2 :=
  get_audio_blocks_ends_at_total [⟨"hi", 0, 3/10⟩] (3/5) 2 ⟨"hi", 0, 3/10⟩
    (by decide) (by decide)

/-- `seconds_to_timecode` is numerically the identity in this model. -/
theorem seconds_to_timecode_eq (s : ℚ) : seconds_to_timecode s = s := rfl

/-- The sampled frame times are strictly increasing. -/
theorem pyRange_sorted (stop step : ℕ) : List.Pairwise (· < ·) (pyRange stop step) :=
  (List.pairwise_lt_range stop).filter _

/-- Every sampled frame time is below the truncated duration. -/
theorem pyRange_lt (stop step : ℕ) : ∀ i ∈ pyRange stop step, i < stop := by
  intro i hi
  exact List.mem_range.mp (List.mem_of_mem_filter hi)

/-- Extending a tiling by one scene that starts where it ends. -/
theorem chainFrom_concat {a m : ℚ} {l : List Scene} (s : Scene)
    (h : chainFrom a l m) (hs : s.start_timecode = m)
    (hse : s.start_timecode ≤ s.end_timecode) :
    chainFrom a (l ++ [s]) s.end_timecode := by
  induction l generalizing a with
  | nil =>
    rw [chainFrom] at h
    subst h
    exact ⟨hs, hs ▸ hse, rfl⟩
  | cons t rest ihl =>
    obtain ⟨h1, h2, h3⟩ := h
    exact ⟨h1, h2, ihl h3⟩

/-- Invariant of the CLIP frame loop: starting from `current_scene_start`,
the emitted scenes tile `[current_scene_start, s']` where `s'` is the final
`current_scene_start`, and `s'` is either the initial start or one of the
visited frame times. -/
theorem visLoop_chain {E : Type} (sim : E → E → ℚ) (threshold : ℚ) (emb : ℕ → E) :
    ∀ (idxs : List ℕ) (prev : Option E) (cs : ℚ) (num : ℕ),
      (∀ i ∈ idxs, cs ≤ (i : ℚ)) → List.Pairwise (· < ·) idxs →
      chainFrom cs (visLoop sim threshold emb idxs prev cs num).1
        (visLoop sim threshold emb idxs prev cs num).2.1 ∧
      ((visLoop sim threshold emb idxs prev cs num).2.1 = cs ∨
        ∃ i ∈ idxs, (visLoop sim threshold emb idxs prev cs num).2.1 = (i : ℚ)) := by
  intro idxs
  induction idxs with
  | nil =>
    intro prev cs num _ _
    exact ⟨rfl, Or.inl rfl⟩
  | cons i rest ih =>
    intro prev cs num h1 h2
    rw [List.pairwise_cons] at h2
    cases prev with
    | none =>
      simp only [visLoop]
      obtain ⟨hc, hd⟩ := ih (some (emb i)) cs num
        (fun j hj => h1 j (List.mem_cons_of_mem i hj)) h2.2
      refine ⟨hc, ?_⟩
      rcases hd with hd | ⟨j, hj, hd⟩
      · exact Or.inl hd
      · exact Or.inr ⟨j, List.mem_cons_of_mem i hj, hd⟩
    | some p =>
      by_cases hs : sim (emb i) p < threshold
      · simp only [visLoop, if_pos hs]
        have hrest : ∀ j ∈ rest, ((i : ℚ)) ≤ (j : ℚ) := by
          intro j hj
          exact_mod_cast le_of_lt (h2.1 j hj)
        obtain ⟨hc, hd⟩ := ih (some (emb i)) (i : ℚ) (num + 1) hrest h2.2
        constructor
        · exact ⟨rfl, h1 i (List.mem_cons_self i rest), hc⟩
        · rcases hd with hd | ⟨j, hj, hd⟩
          · exact Or.inr ⟨i, List.mem_cons_self i rest, hd⟩
          · exact Or.inr ⟨j, List.mem_cons_of_mem i hj, hd⟩
      · simp only [visLoop, if_neg hs]
        obtain ⟨hc, hd⟩ := ih (some (emb i)) cs num
          (fun j hj => h1 j (List.mem_cons_of_mem i hj)) h2.2
        refine ⟨hc, ?_⟩
        rcases hd with hd | ⟨j, hj, hd⟩
        · exact Or.inl hd
        · exact Or.inr ⟨j, List.mem_cons_of_mem i hj, hd⟩

/-- Claim C8: for every finite similarity stream (any embedding function and
similarity scorer), a positive sampling interval and a non-negative duration,
the similarity-threshold shot segmenter's output is a non-empty sequence of
intervals tiling `[0, duration]` exactly: the first starts at 0, each
interval's end is the next one's start, every interval has `start ≤ end`, and
the last ends at the total duration. -/
theorem visual_scenes_partition :
    ∀ {E : Type} (sim : E → E → ℚ) (emb : ℕ → E) (duration : ℚ)
      (seconds_per_check : ℕ) (threshold : ℚ),
      0 < seconds_per_check → 0 ≤ duration →
      get_visual_scenes sim emb duration seconds_per_check threshold ≠ [] ∧
      chainFrom 0 (get_visual_scenes sim emb duration seconds_per_check threshold)
        duration := by
  intro E sim emb duration spc thr _hspc hdur
  have hfloor : (0 : ℤ) ≤ ⌊duration⌋ := Int.floor_nonneg.mpr hdur
  have hcast : ((Int.toNat ⌊duration⌋ : ℕ) : ℚ) ≤ duration := by
    have h1 : ((Int.toNat ⌊duration⌋ : ℕ) : ℤ) = ⌊duration⌋ := Int.toNat_of_nonneg hfloor
    have h2 : ((⌊duration⌋ : ℤ) : ℚ) ≤ duration := Int.floor_le duration
    exact_mod_cast h1 ▸ h2
  obtain ⟨hc, hd⟩ := visLoop_chain sim thr emb
    (pyRange (Int.toNat ⌊duration⌋) spc) none 0 1
    (fun i _ => by positivity) (pyRange_sorted _ _)
  have hle :
      (visLoop sim thr emb (pyRange (Int.toNat ⌊duration⌋) spc) none 0 1).2.1 ≤
        duration := by
    rcases hd with hd | ⟨i, hi, hd⟩
    · rw [hd]; exact hdur
    · rw [hd]
      have : (i : ℚ) < ((Int.toNat ⌊duration⌋ : ℕ) : ℚ) := by
        exact_mod_cast pyRange_lt _ _ i hi
      linarith
  constructor
  · simp [get_visual_scenes]
  · have := chainFrom_concat
      (⟨(visLoop sim thr emb (pyRange (Int.toNat ⌊duration⌋) spc) none 0 1).2.2,
        seconds_to_timecode
          (visLoop sim thr emb (pyRange (Int.toNat ⌊duration⌋) spc) none 0 1).2.1,
        seconds_to_timecode duration⟩ : Scene)
      hc rfl (by simpa [seconds_to_timecode_eq] using hle)
    simpa [get_visual_scenes, seconds_to_timecode_eq] using this

/-- Claim C8 witness: a concrete embedding stream (`emb n = n`, similarity
`a - b`, threshold 0) over duration 5 sampled every 2 seconds. -/
theorem visual_scenes_partition_witness :
    get_visual_scenes (fun a b : ℚ => a - b) (fun n => (n : ℚ)) 5 2 0 ≠ [] ∧
    chainFrom 0 (get_visual_scenes (fun a b : ℚ => a - b) (fun n => (n : ℚ)) 5 2 0)
      5 :=
  visual_scenes_partition (fun a b : ℚ => a - b) (fun n => (n : ℚ)) 5 2 0
    (by decide) (by decide)

/-- A leading original clip never constrains the ordering property. -/
theorem narrationPrecedesFootage_video (a b : ℚ) (l : List VClip) :
    narrationPrecedesFootage (VClip.videoClip a b :: l) ↔
      narrationPrecedesFootage l := Iff.rfl

/-- A leading narration clip requires the next entry to be its footage. -/
theorem narrationPrecedesFootage_narr (t : ℚ) (x : String) (l : List VClip) :
    narrationPrecedesFootage (VClip.narrationClip t x :: l) ↔
      (∃ e, l.head? = some (VClip.videoClip t e)) ∧ narrationPrecedesFootage l :=
  Iff.rfl

/-- A leading original clip never constrains `narrTail` either. -/
theorem narrTail_video (a b : ℚ) (l : List VClip) (p : ℚ) :
    narrTail (VClip.videoClip a b :: l) p ↔ narrTail l p := by
  cases l with
  | nil => simp [narrTail]
  | cons c rest => exact Iff.rfl

/-- Closing a pending narration with its footage clip yields the full
ordering property. -/
theorem narrTail_concat_video (e : ℚ) :
    ∀ (l : List VClip) (p : ℚ), narrTail l p →
      narrationPrecedesFootage (l ++ [VClip.videoClip p e]) := by
  intro l
  induction l with
  | nil => intro p _; exact trivial
  | cons c rest ih =>
    intro p h
    cases c with
    | videoClip a b =>
      rw [List.cons_append, narrationPrecedesFootage_video]
      exact ih p ((narrTail_video a b rest p).mp h)
    | narrationClip t x =>
      cases rest with
      | nil =>
        rw [narrTail] at h
        subst h
        exact ⟨⟨e, rfl⟩, trivial⟩
      | cons c2 rest2 =>
        obtain ⟨⟨e2, he2⟩, htail⟩ := h
        exact ⟨⟨e2, by subst he2; rfl⟩, ih p htail⟩

/-- Appending a footage clip for the pending narration followed by a fresh
narration leaves a `narrTail` anchored at the new narration's time. -/
theorem narrTail_append_video_narr (e : ℚ) (t : ℚ) (x : String) :
    ∀ (l : List VClip) (p : ℚ), narrTail l p →
      narrTail (l ++ [VClip.videoClip p e, VClip.narrationClip t x]) t := by
  intro l
  induction l with
  | nil =>
    intro p _
    rw [List.nil_append, narrTail_video]
    rfl
  | cons c rest ih =>
    intro p h
    cases c with
    | videoClip a b =>
      rw [List.cons_append, narrTail_video]
      exact ih p ((narrTail_video a b rest p).mp h)
    | narrationClip t' x' =>
      cases rest with
      | nil =>
        rw [narrTail] at h
        subst h
        exact ⟨⟨e, rfl⟩, by rw [narrTail_video]; rfl⟩
      | cons c2 rest2 =>
        obtain ⟨⟨e2, he2⟩, htail⟩ := h
        exact ⟨⟨e2, he2⟩, ih p htail⟩

/-- The script loop's final `previous_time` is the last line's timestamp. -/
theorem processLines_last :
    ∀ (lines : List ScriptLine) (prev : ℚ) (clips : List VClip) (l0 : ScriptLine),
      lines.getLast? = some l0 →
      (processLines lines prev clips).2 = l0.timestamp := by
  intro lines
  induction lines with
  | nil => intro prev clips l0 h; simp at h
  | cons l rest ih =>
    intro prev clips l0 h
    cases rest with
    | nil =>
      simp at h
      subst h
      rfl
    | cons l2 rest2 =>
      rw [List.getLast?_cons_cons] at h
      simp only [processLines]
      exact ih _ _ l0 h

/-- Unpacking one step of `scriptSortedB`. -/
theorem scriptSortedB_head_tail {total : ℚ} {a : ScriptLine} {rest : List ScriptLine}
    (h : scriptSortedB total (a :: rest) = true) :
    a.timestamp < total ∧ scriptSortedB total rest = true ∧
      ∀ b0, rest.head? = some b0 → a.timestamp < b0.timestamp := by
  cases rest with
  | nil =>
    refine ⟨by simpa [scriptSortedB] using h, rfl, ?_⟩
    intro b0 hb
    simp at hb
  | cons b rest2 =>
    rw [scriptSortedB, Bool.and_assoc, Bool.and_eq_true, Bool.and_eq_true] at h
    refine ⟨by simpa using h.1, h.2.2, ?_⟩
    intro b0 hb
    rw [List.head?_cons, Option.some_inj] at hb
    subst hb
    simpa using h.2.1

/-- Every timestamp of a sorted script is below the total duration. -/
theorem scriptSortedB_all_lt {total : ℚ} :
    ∀ {lines : List ScriptLine}, scriptSortedB total lines = true →
      ∀ l ∈ lines, l.timestamp < total := by
  intro lines
  induction lines with
  | nil => intro _ l hl; simp at hl
  | cons a rest ih =>
    intro h l hl
    obtain ⟨h1, h2, _⟩ := scriptSortedB_head_tail h
    rcases List.mem_cons.mp hl with hl | hl
    · rw [hl]; exact h1
    · exact ih h2 l hl

/-- Invariant of the script-line loop: from a clip list whose only pending
narration (if any) is anchored at `previous_time`, a sorted script yields a
clip list with the same shape. -/
theorem processLines_narrTail {total : ℚ} :
    ∀ (lines : List ScriptLine) (prev : ℚ) (clips : List VClip),
      scriptSortedB total lines = true →
      narrTail clips prev →
      (∀ l0, lines.head? = some l0 → prev < l0.timestamp ∨ clips = []) →
      narrTail (processLines lines prev clips).1 (processLines lines prev clips).2 := by
  intro lines
  induction lines with
  | nil => intro prev clips _ htail _; exact htail
  | cons l rest ih =>
    intro prev clips hsort htail hhead
    obtain ⟨_, hsrest, hnext⟩ := scriptSortedB_head_tail hsort
    simp only [processLines, seconds_to_timecode_eq]
    by_cases hne : l.timestamp ≠ prev
    · rw [if_pos hne]
      have htail2 :
          narrTail ((clips ++ [VClip.videoClip prev l.timestamp]) ++
            [VClip.narrationClip l.timestamp l.text]) l.timestamp := by
        rw [List.append_assoc]
        exact narrTail_append_video_narr l.timestamp l.timestamp l.text clips prev htail
      exact ih l.timestamp _ hsrest htail2
        (fun b0 hb => Or.inl (hnext b0 hb))
    · rw [if_neg hne]
      push_neg at hne
      rcases hhead l rfl with hlt | hnil
      · exact absurd (hne ▸ hlt) (lt_irrefl prev)
      · subst hnil
        have htail2 :
            narrTail ([] ++ [VClip.narrationClip l.timestamp l.text]) l.timestamp :=
          rfl
        exact ih l.timestamp _ hsrest htail2 (fun b0 hb => Or.inl (hnext b0 hb))

/-- Claim C7: whenever a description is accepted for a window, the
synchronizer appends the narration clip immediately before the original clip
for that window; and in the script-driven pipeline, for every script with
strictly increasing timestamps below the media duration, every narration clip
in the final edit list is immediately followed by the original-footage clip
starting at the narration's anchor time. -/
theorem narration_before_footage :
    ∀ (describe : ℕ → String) (semantic_similarity : String → String → ℚ)
      (similarly_score : ℚ) (n : ℕ) (clips : List Clip)
      (previous_descriptions : List String) (lines : List ScriptLine)
      (total_duration : ℚ),
      (describe n ≠ "" →
        sceneSkipping semantic_similarity similarly_score (describe n)
          previous_descriptions = false →
        process_scene describe semantic_similarity similarly_score n clips
            previous_descriptions =
          (clips ++ [Clip.stillFrameClip n, Clip.sceneClip n],
            previous_descriptions ++ [describe n])) ∧
      (scriptSortedB total_duration lines = true →
        narrationPrecedesFootage (process_video lines total_duration)) := by
  intro describe semantic_similarity similarly_score n clips previous_descriptions
    lines total_duration
  constructor
  · intro h1 h2
    simp [process_scene, h1, h2]
  · intro hsort
    have hloop := processLines_narrTail lines 0 [] hsort trivial
      (fun l0 _ => Or.inr rfl)
    unfold process_video
    by_cases hne : (processLines lines 0 []).2 ≠ total_duration
    · rw [if_pos hne]
      simp only [seconds_to_timecode_eq]
      exact narrTail_concat_video total_duration _ _ hloop
    · rw [if_neg hne]
      push_neg at hne
      cases hl : lines with
      | nil => exact trivial
      | cons l rest =>
        exfalso
        have hlast : lines.getLast? = some (lines.getLast (by rw [hl]; simp)) :=
          List.getLast?_eq_getLast lines (by rw [hl]; simp)
        have h2 := processLines_last lines 0 [] _ hlast
        have h3 := scriptSortedB_all_lt hsort _ (List.getLast_mem (by rw [hl]; simp))
        rw [hne] at h2
        exact absurd (h2 ▸ h3) (lt_irrefl total_duration)

/-- Claim C7 witness: a non-empty accepted description for scene 0, and the
one-line script `0.5 x` over a 2-second video. -/
theorem narration_before_footage_witness :
    process_scene (fun _ => "d") (fun _ _ => 0) 1 0 [] [] =
      ([Clip.stillFrameClip 0, Clip.sceneClip 0], ["d"]) ∧
    narrationPrecedesFootage (process_video [⟨1/2, "x"⟩] 2) := by
  have h := narration_before_footage (fun _ => "d") (fun _ _ => 0) 1 0 [] []
    [⟨1/2, "x"⟩] 2
  exact ⟨h.1 (by decide) rfl, h.2 (by decide)⟩

/-- `_timecode_to_seconds` is numerically the identity in this model. -/
theorem _timecode_to_seconds_eq (t : ℚ) : _timecode_to_seconds t = t := rfl

/-- The segment-merge scan never returns an empty list. -/
theorem mergeSegLoop_ne_nil (d : ℚ) :
    ∀ (l : List Segment) (b : Segment), mergeSegLoop d b l ≠ [] := by
  intro l
  induction l with
  | nil => intro b; simp [mergeSegLoop]
  | cons s rest ih =>
    intro b
    rw [mergeSegLoop]
    split_ifs
    · exact ih _
    · simp

/-- Every segment the scan locks (everything except the final buffer) has
duration at least `min_length`. -/
theorem mergeSegLoop_dropLast_big (d : ℚ) :
    ∀ (l : List Segment) (b : Segment),
      ∀ x ∈ (mergeSegLoop d b l).dropLast, d ≤ x.«end» - x.start := by
  intro l
  induction l with
  | nil => intro b x hx; simp [mergeSegLoop] at hx
  | cons s rest ih =>
    intro b x hx
    rw [mergeSegLoop] at hx
    split_ifs at hx with hlt
    · exact ih _ x hx
    · cases hml : mergeSegLoop d s rest with
      | nil => exact absurd hml (mergeSegLoop_ne_nil d rest s)
      | cons c t =>
        rw [hml, List.dropLast_cons_of_ne_nil (by simp)] at hx
        rcases List.mem_cons.mp hx with hx | hx
        · rw [hx]; exact not_lt.mp hlt
        · exact ih s x (by rw [hml]; exact hx)

/-- A list whose locked prefix is all long enough is a fixed point of the
segment-merge scan. -/
theorem mergeSegLoop_fixed (d : ℚ) :
    ∀ (l : List Segment) (b : Segment),
      (∀ x ∈ (b :: l).dropLast, d ≤ x.«end» - x.start) →
      mergeSegLoop d b l = b :: l := by
  intro l
  induction l with
  | nil => intro b _; rfl
  | cons s rest ih =>
    intro b h
    have hb : d ≤ b.«end» - b.start := by
      apply h
      rw [List.dropLast_cons_of_ne_nil (by simp)]
      exact List.mem_cons_self b _
    rw [mergeSegLoop, if_neg (not_lt.mpr hb)]
    congr 1
    apply ih
    intro x hx
    apply h
    rw [List.dropLast_cons_of_ne_nil (by simp)]
    exact List.mem_cons_of_mem b hx

/-- Unpacking one step of `orderedScenesB`. -/
theorem orderedScenesB_cons {a : Scene} {l : List Scene}
    (h : orderedScenesB (a :: l) = true) :
    0 ≤ a.start_timecode ∧ a.start_timecode ≤ a.end_timecode ∧
      (∀ b0, l.head? = some b0 → a.end_timecode ≤ b0.start_timecode) ∧
      orderedScenesB l = true := by
  cases l with
  | nil =>
    rw [orderedScenesB, Bool.and_eq_true] at h
    refine ⟨by simpa using h.1, by simpa using h.2, ?_, rfl⟩
    intro b0 hb
    simp at hb
  | cons b rest =>
    rw [orderedScenesB, Bool.and_eq_true, Bool.and_eq_true, Bool.and_eq_true] at h
    refine ⟨by simpa using h.1.1.1, by simpa using h.1.1.2, ?_, h.2⟩
    intro b0 hb
    rw [List.head?_cons, Option.some_inj] at hb
    subst hb
    simpa using h.1.2

/-- Fusing a short scene forward preserves the interval order invariant. -/
theorem orderedScenesB_fuse {c n : Scene} {rest : List Scene}
    (h : orderedScenesB (c :: n :: rest) = true) :
    orderedScenesB ({ c with end_timecode := n.end_timecode } :: rest) = true := by
  obtain ⟨h1, h2, h3, h4⟩ := orderedScenesB_cons h
  obtain ⟨h5, h6, h7, h8⟩ := orderedScenesB_cons h4
  have hcn : c.end_timecode ≤ n.start_timecode := h3 n rfl
  cases rest with
  | nil =>
    rw [orderedScenesB, Bool.and_eq_true]
    constructor
    · simpa using h1
    · simp only [decide_eq_true_eq]
      linarith
  | cons r0 rest2 =>
    rw [orderedScenesB, Bool.and_eq_true, Bool.and_eq_true, Bool.and_eq_true]
    refine ⟨⟨⟨by simpa using h1, ?_⟩, ?_⟩, h8⟩
    · simp only [decide_eq_true_eq]
      linarith
    · simp only [decide_eq_true_eq]
      exact h7 r0 rfl

/-- Every scene locked by the scene-merge scan has duration at least
`min_duration`. -/
theorem mergeScenesLoop_locked_big (d : ℚ) :
    ∀ (l : List Scene) (c : Scene), ∀ x ∈ (mergeScenesLoop d c l).1,
      d ≤ x.end_timecode - x.start_timecode := by
  intro l
  induction l with
  | nil => intro c x hx; simp [mergeScenesLoop] at hx
  | cons n rest ih =>
    intro c x hx
    rw [mergeScenesLoop] at hx
    split_ifs at hx with hlt
    · exact ih _ x hx
    · rcases List.mem_cons.mp hx with hx | hx
      · rw [hx]
        exact not_lt.mp (by simpa [_timecode_to_seconds_eq] using hlt)
      · exact ih n x hx

/-- Under the interval order invariant, every scene end appearing in the
scan's output is bounded by the final current scene's end. -/
theorem mergeScenesLoop_ends_le (d : ℚ) :
    ∀ (l : List Scene) (c : Scene), orderedScenesB (c :: l) = true →
      c.end_timecode ≤ (mergeScenesLoop d c l).2.end_timecode ∧
      ∀ x ∈ (mergeScenesLoop d c l).1,
        x.end_timecode ≤ (mergeScenesLoop d c l).2.end_timecode := by
  intro l
  induction l with
  | nil =>
    intro c _
    exact ⟨le_refl _, by intro x hx; simp [mergeScenesLoop] at hx⟩
  | cons n rest ih =>
    intro c hord
    obtain ⟨_, h2, h3, h4⟩ := orderedScenesB_cons hord
    obtain ⟨_, h6, _, _⟩ := orderedScenesB_cons h4
    have hcn : c.end_timecode ≤ n.start_timecode := h3 n rfl
    rw [mergeScenesLoop]
    split_ifs with hlt
    · obtain ⟨ha, hb⟩ := ih _ (orderedScenesB_fuse hord)
      constructor
      · calc c.end_timecode ≤ n.end_timecode := by linarith
          _ ≤ _ := ha
      · exact hb
    · obtain ⟨ha, hb⟩ := ih n h4
      have hce : c.end_timecode ≤
          (mergeScenesLoop d n rest).2.end_timecode := by
        calc c.end_timecode ≤ n.end_timecode := by linarith
          _ ≤ _ := ha
      refine ⟨hce, ?_⟩
      intro x hx
      rcases List.mem_cons.mp hx with hx | hx
      · rw [hx]; exact hce
      · exact hb x hx

/-- On a list of all-long-enough scenes the scan locks everything: it returns
the list minus its last element, with the last element as the final current
scene. -/
theorem mergeScenesLoop_all_big (d : ℚ) :
    ∀ (l : List Scene) (c : Scene),
      (∀ x ∈ c :: l, d ≤ x.end_timecode - x.start_timecode) →
      (mergeScenesLoop d c l).1 = (c :: l).dropLast ∧
      (c :: l).getLast? = some (mergeScenesLoop d c l).2 := by
  intro l
  induction l with
  | nil => intro c _; exact ⟨rfl, rfl⟩
  | cons n rest ih =>
    intro c h
    have hc : d ≤ c.end_timecode - c.start_timecode := h c (List.mem_cons_self c _)
    rw [mergeScenesLoop, if_neg (by simpa [_timecode_to_seconds_eq] using not_lt.mpr hc)]
    obtain ⟨h1, h2⟩ := ih n (fun x hx => h x (List.mem_cons_of_mem c hx))
    constructor
    · show c :: (mergeScenesLoop d n rest).1 = (c :: n :: rest).dropLast
      rw [List.dropLast_cons_of_ne_nil (by simp), h1]
    · show (c :: n :: rest).getLast? = some (mergeScenesLoop d n rest).2
      rw [List.getLast?_cons_cons]
      exact h2

/-- Extending the last end of a list of long-enough scenes whose ends are
bounded by `e` keeps every scene long enough. -/
theorem setLastEnd_big (d e : ℚ) :
    ∀ (l : List Scene),
      (∀ x ∈ l, d ≤ x.end_timecode - x.start_timecode ∧ x.end_timecode ≤ e) →
      ∀ y ∈ setLastEnd e l, d ≤ y.end_timecode - y.start_timecode := by
  intro l
  induction l with
  | nil => intro _ y hy; simp [setLastEnd] at hy
  | cons s rest ih =>
    intro h y hy
    cases rest with
    | nil =>
      rw [setLastEnd] at hy
      rcases List.mem_singleton.mp hy with hy
      obtain ⟨ha, hb⟩ := h s (List.mem_cons_self s _)
      rw [hy]
      simp only []
      linarith
    | cons s2 rest2 =>
      rw [setLastEnd] at hy
      rcases List.mem_cons.mp hy with hy | hy
      · rw [hy]
        exact (h s (List.mem_cons_self s _)).1
      · exact ih (fun x hx => h x (List.mem_cons_of_mem s hx)) y hy

/-- Renumbering is idempotent. -/
theorem renumberFrom_idem : ∀ (l : List Scene) (i : ℕ),
    renumberFrom i (renumberFrom i l) = renumberFrom i l := by
  intro l
  induction l with
  | nil => intro i; rfl
  | cons s rest ih =>
    intro i
    rw [renumberFrom, renumberFrom, ih]

/-- Renumbering only changes scene numbers: every renumbered scene keeps the
time span of a scene of the original list. -/
theorem renumberFrom_fields : ∀ (l : List Scene) (i : ℕ),
    ∀ y ∈ renumberFrom i l, ∃ x ∈ l,
      y.start_timecode = x.start_timecode ∧ y.end_timecode = x.end_timecode := by
  intro l
  induction l with
  | nil => intro i y hy; simp [renumberFrom] at hy
  | cons s rest ih =>
    intro i y hy
    rw [renumberFrom] at hy
    rcases List.mem_cons.mp hy with hy | hy
    · exact ⟨s, List.mem_cons_self s _, by rw [hy], by rw [hy]⟩
    · obtain ⟨x, hx, hh⟩ := ih (i + 1) y hy
      exact ⟨x, List.mem_cons_of_mem s hx, hh⟩

/-- A list's drop-last plus its optional last element reassemble the list. -/
theorem dropLast_append_getLast? :
    ∀ (l : List Scene) (a : Scene), l.getLast? = some a → l.dropLast ++ [a] = l := by
  intro l
  induction l with
  | nil => intro a h; simp at h
  | cons s rest ih =>
    intro a h
    cases rest with
    | nil =>
      simp at h
      subst h
      rfl
    | cons s2 rest2 =>
      rw [List.getLast?_cons_cons] at h
      rw [List.dropLast_cons_of_ne_nil (by simp), List.cons_append, ih a h]

/-- The cons-case of `_merge_short_scenes`, spelled out. -/
theorem merge_short_scenes_cons (c : Scene) (rest : List Scene) (d : ℚ) :
    _merge_short_scenes (c :: rest) d =
      renumberFrom 0
        (if _timecode_to_seconds (mergeScenesLoop d c rest).2.end_timecode -
            _timecode_to_seconds (mergeScenesLoop d c rest).2.start_timecode < d ∧
            (mergeScenesLoop d c rest).1 ≠ [] then
          setLastEnd (mergeScenesLoop d c rest).2.end_timecode
            (mergeScenesLoop d c rest).1
        else (mergeScenesLoop d c rest).1 ++ [(mergeScenesLoop d c rest).2]) := rfl

/-- A renumbered list of all-long-enough scenes (or a renumbered singleton)
is a fixed point of the scene merger. -/
theorem merge_scenes_fixed (d : ℚ) (l : List Scene)
    (h : (∀ x ∈ l, d ≤ x.end_timecode - x.start_timecode) ∨ ∃ s, l = [s]) :
    _merge_short_scenes (renumberFrom 0 l) d = renumberFrom 0 l := by
  rcases h with hbig | ⟨s, hs⟩
  · cases l with
    | nil => rfl
    | cons c rest =>
      have hbig' : ∀ x ∈ { c with scene_number := 0 } :: renumberFrom 1 rest,
          d ≤ x.end_timecode - x.start_timecode := by
        intro y hy
        obtain ⟨x, hx, h1, h2⟩ := renumberFrom_fields (c :: rest) 0 y hy
        rw [h2, h1]
        exact hbig x hx
      show _merge_short_scenes ({ c with scene_number := 0 } :: renumberFrom 1 rest) d =
        renumberFrom 0 (c :: rest)
      rw [merge_short_scenes_cons]
      obtain ⟨h1, h2⟩ := mergeScenesLoop_all_big d (renumberFrom 1 rest)
        { c with scene_number := 0 } hbig'
      have hbigcur := hbig' _ (List.mem_of_getLast?_eq_some h2)
      rw [if_neg (fun hc =>
        absurd hc.1 (by simpa [_timecode_to_seconds_eq] using not_lt.mpr hbigcur))]
      rw [h1, dropLast_append_getLast? _ _ h2]
      exact renumberFrom_idem (c :: rest) 0
  · subst hs
    show _merge_short_scenes [{ s with scene_number := 0 }] d =
      [{ s with scene_number := 0 }]
    rw [merge_short_scenes_cons]
    rw [if_neg (fun hc => hc.2 rfl)]
    rfl

/-- Claim C4: the segment merger is idempotent — unconditionally for
`describe_video.merge_short_segments`, and for
`visual_scene_detect._merge_short_scenes` on every ordered interval sequence
(the spec's order invariant `0 ≤ start ≤ end`, `end ≤ next start`). -/
theorem merge_idempotent :
    ∀ (x : List Segment) (y : List Scene) (d : ℚ),
      merge_short_segments (merge_short_segments x d) d =
        merge_short_segments x d ∧
      (orderedScenesB y = true →
        _merge_short_scenes (_merge_short_scenes y d) d = _merge_short_scenes y d) := by
  intro x y d
  constructor
  · cases x with
    | nil => rfl
    | cons s rest =>
      show merge_short_segments (mergeSegLoop d s rest) d = mergeSegLoop d s rest
      cases hout : mergeSegLoop d s rest with
      | nil => exact absurd hout (mergeSegLoop_ne_nil d rest s)
      | cons b l =>
        show mergeSegLoop d b l = b :: l
        apply mergeSegLoop_fixed
        rw [← hout]
        exact mergeSegLoop_dropLast_big d rest s
  · intro hord
    cases y with
    | nil => rfl
    | cons c rest =>
      rw [merge_short_scenes_cons]
      by_cases hcond :
          _timecode_to_seconds (mergeScenesLoop d c rest).2.end_timecode -
            _timecode_to_seconds (mergeScenesLoop d c rest).2.start_timecode < d ∧
            (mergeScenesLoop d c rest).1 ≠ []
      · rw [if_pos hcond]
        apply merge_scenes_fixed
        left
        apply setLastEnd_big d (mergeScenesLoop d c rest).2.end_timecode
        intro z hz
        exact ⟨mergeScenesLoop_locked_big d rest c z hz,
          (mergeScenesLoop_ends_le d rest c hord).2 z hz⟩
      · rw [if_neg hcond]
        apply merge_scenes_fixed
        by_cases hL0 : (mergeScenesLoop d c rest).1 = []
        · right
          exact ⟨(mergeScenesLoop d c rest).2, by rw [hL0]; rfl⟩
        · left
          intro z hz
          rcases List.mem_append.mp hz with hz | hz
          · exact mergeScenesLoop_locked_big d rest c z hz
          · rw [List.mem_singleton.mp hz]
            have hnot :
                ¬ (_timecode_to_seconds (mergeScenesLoop d c rest).2.end_timecode -
                  _timecode_to_seconds (mergeScenesLoop d c rest).2.start_timecode <
                    d) :=
              fun hshort => hcond ⟨hshort, hL0⟩
            simpa [_timecode_to_seconds_eq] using not_lt.mp hnot

/-- Claim C4 witness: a concrete interval list (with a short middle interval)
merged twice, for both mergers; the scene list satisfies the order
invariant. -/
theorem merge_idempotent_witness :
    merge_short_segments
        (merge_short_segments [⟨0, 5, ""⟩, ⟨5, 6, ""⟩, ⟨6, 20, ""⟩] 2) 2 =
      merge_short_segments [⟨0, 5, ""⟩, ⟨5, 6, ""⟩, ⟨6, 20, ""⟩] 2 ∧
    _merge_short_scenes
        (_merge_short_scenes [⟨0, 0, 5⟩, ⟨1, 5, 6⟩, ⟨2, 6, 20⟩] 2) 2 =
      _merge_short_scenes [⟨0, 0, 5⟩, ⟨1, 5, 6⟩, ⟨2, 6, 20⟩] 2 := by
  have h := merge_idempotent [⟨0, 5, ""⟩, ⟨5, 6, ""⟩, ⟨6, 20, ""⟩]
    [⟨0, 0, 5⟩, ⟨1, 5, 6⟩, ⟨2, 6, 20⟩] 2
  exact ⟨h.1, h.2 (by decide)⟩

/-- Claim C9: an inter-token gap exactly equal to `min_pause` never triggers
a break (the test is strict `>`), and a two-token input whose gap equals
`min_pause` exactly (and whose first token starts within `min_pause` of 0)
produces a single merged speech block spanning both tokens, followed only by
the trailing silence block when the media extends further. -/
theorem exact_min_pause_no_break :
    ∀ (min_pause last_end total : ℚ) (w w1 w2 : WordToken),
      (w.start - last_end = min_pause →
        breakCondition min_pause last_end w = false) ∧
      (w1.start ≤ min_pause → w2.start - w1.«end» = min_pause →
        get_audio_blocks [w1, w2] min_pause total =
          ⟨0, w1.word ++ w2.word, some w1.start, w2.«end»⟩ ::
            (if w2.«end» < total then [⟨1, "", some w2.«end», total⟩] else [])) := by
  intro min_pause last_end total w w1 w2
  constructor
  · intro h
    simp [breakCondition, h]
  · intro h1 h2
    have hb1 : breakCondition min_pause 0 w1 = false := by
      simp [breakCondition]
      linarith
    have hb2 : breakCondition min_pause w1.«end» w2 = false := by
      simp [breakCondition, h2]
    simp [get_audio_blocks, getAudioBlocksLoop, hb1, hb2, seconds_to_timecode]
    split_ifs <;> rfl

/-- Claim C9 witness (spec scenario B): tokens ending at 0.5 and starting at
1.1 with `min_pause = 0.6` merge into one speech block. -/
theorem exact_min_pause_no_break_witness :
    breakCondition (3/5) (1/2) ⟨"b", 11/10, 8/5⟩ = false ∧
    get_audio_blocks [⟨"a", 0, 1/2⟩, ⟨"b", 11/10, 8/5⟩] (3/5) 2 =
      ⟨0, "a" ++ "b", some 0, 8/5⟩ ::
        (if (8/5 : ℚ) < 2 then [⟨1, "", some (8/5), 2⟩] else []) := by
  have h := exact_min_pause_no_break (3/5) (1/2) 2 ⟨"b", 11/10, 8/5⟩
    ⟨"a", 0, 1/2⟩ ⟨"b", 11/10, 8/5⟩
  exact ⟨h.1 (by decide), h.2 (by decide) (by decide)⟩

/-- Claim C10 witness: a filesystem state where the path exists, is a file,
and resolves into `./tmp`, so the deleter removes it; the hypotheses of each
conjunct are discharged concretely. -/
theorem delete_tmp_file_safety_witness :
    (false = false ∧
      (FileSystem.mk (fun _ => true) (fun _ => true) (fun s => s)
          (fun _ => "./tmp")).pathExists "x" = true ∧
      (FileSystem.mk (fun _ => true) (fun _ => true) (fun s => s)
          (fun _ => "./tmp")).isfile "x" = true ∧
      (FileSystem.mk (fun _ => true) (fun _ => true) (fun s => s)
          (fun _ => "./tmp")).dirname
          ((FileSystem.mk (fun _ => true) (fun _ => true) (fun s => s)
            (fun _ => "./tmp")).abspath "x") =
        (FileSystem.mk (fun _ => true) (fun _ => true) (fun s => s)
          (fun _ => "./tmp")).abspath "./tmp" ∧
      "x" = (FileSystem.mk (fun _ => true) (fun _ => true) (fun s => s)
          (fun _ => "./tmp")).abspath "x") ∧
    delete_tmp_file true
        (FileSystem.mk (fun _ => true) (fun _ => true) (fun s => s)
          (fun _ => "./tmp")) "x" = DeleteResult.noop := by
  have h := delete_tmp_file_safety false
    (FileSystem.mk (fun _ => true) (fun _ => true) (fun s => s) (fun _ => "./tmp"))
    "x" "x"
  have h2 := delete_tmp_file_safety true
    (FileSystem.mk (fun _ => true) (fun _ => true) (fun s => s) (fun _ => "./tmp"))
    "x" "x"
  exact ⟨h.1 (by decide), h2.2.1 (Or.inl rfl)⟩
